import Mathlib

/-!
# MiniShell: a shallow embedding of `src/mini_shell.cpp`

The command-execution engine of the interactive shell is embedded as pure Lean
functions:

* `split` (lines 51-57), the whitespace tokenizer built on `ss >> token`;
* `extractDirectives` (lines 150-168), the background flag and the
  redirection scan of `runExternalCommand`, with the `size_t` loop index kept
  modulo `2 ^ 64`;
* `runExternalCommand` (lines 149-188) and `handlePipes` (lines 190-236),
  which return the `execvp` calls made by the forked children;
* `handleCustomCommands`, `handleBuiltInCommands` and `runIteration`
  (lines 25-48), one iteration of the read/dispatch loop.

A `std::string` is a Lean `String`. Every character the program inspects
(`|`, `<`, `>`, `&`, white space) is ASCII, so positions counted in
characters and positions counted in bytes select the same pieces of a line.
Operating-system effects are returned as data (`Launch`, `Outcome`); a
`Launch` describes what a child does once `fork` has created it.
-/

namespace MiniShell

/-! ## Machine integers -/

/-- The number of values of `size_t`: arithmetic on loop indices is taken
modulo this number. -/
def SIZE_MOD : Nat := 2 ^ 64

/-! ## Tokenizer (lines 51-57) -/

/-- The classification `std::isspace` of the default "C" locale: space and the
control characters `\t \n \v \f \r` (codes 9 to 13). -/
def isspace (c : Char) : Bool :=
  c.toNat == 32 || (9 ≤ c.toNat && c.toNat ≤ 13)

/-- One formatted extraction `ss >> token` on the unread part of the stream:
leading white space is skipped, then characters are read up to the next white
space or the end of the stream. The extraction fails (`none`, the stream's
fail bit) when no character could be read; otherwise it yields the token and
the unread rest. -/
def extractToken (stream : List Char) : Option (String × List Char) :=
  let unread := stream.dropWhile isspace
  let token := unread.takeWhile (fun c => !isspace c)
  if token = [] then none
  else some (String.mk token, unread.dropWhile (fun c => !isspace c))

/-- The loop `while (ss >> token) tokens.push_back(token);` of line 55, with
a bound on the number of iterations; `none` means the bound was reached. -/
def splitLoop : Nat → List Char → List String → Option (List String)
  | 0, _, _ => none
  | fuel + 1, stream, tokens =>
    match extractToken stream with
    | none => some tokens
    | some (token, rest) => splitLoop fuel rest (tokens ++ [token])

/-- The function `MiniShell::split` (lines 51-57). -/
def split (input : String) : Option (List String) :=
  splitLoop (input.data.length + 1) input.data []

/-! ## Directive extraction (lines 150-168) -/

/-- The local variables of the redirection scan of lines 158-168. -/
structure ScanState where
  /-- The loop index `i`, a `size_t`. -/
  i : Nat
  /-- The vector `args`. -/
  args : List String
  /-- The string `inputFile`. -/
  inputFile : String
  /-- The string `outputFile`. -/
  outputFile : String
  deriving DecidableEq

/-- The call `args.erase(args.begin() + i, args.begin() + i + 2)`. -/
def erasePair (args : List String) (i : Nat) : List String :=
  args.take i ++ args.drop (i + 2)

/-- The body of the `for` loop (lines 159-167), run when `i < args.size()`.
The decrement `i--` is taken modulo `SIZE_MOD`. -/
def scanBody (s : ScanState) : ScanState :=
  if s.args[s.i]? = some "<" ∧ s.i + 1 < s.args.length then
    { i := (s.i + SIZE_MOD - 1) % SIZE_MOD
      args := erasePair s.args s.i
      inputFile := s.args.getD (s.i + 1) ""
      outputFile := s.outputFile }
  else if s.args[s.i]? = some ">" ∧ s.i + 1 < s.args.length then
    { i := (s.i + SIZE_MOD - 1) % SIZE_MOD
      args := erasePair s.args s.i
      inputFile := s.inputFile
      outputFile := s.args.getD (s.i + 1) "" }
  else s

/-- The `for` loop of lines 158-168: test `i < args.size()`, run the body,
then `++i` modulo `SIZE_MOD`. The first argument bounds the number of
iterations; `none` means the bound was reached. -/
def scanLoop : Nat → ScanState → Option ScanState
  | 0, _ => none
  | fuel + 1, s =>
    if s.i < s.args.length then
      let s1 := scanBody s
      scanLoop fuel { s1 with i := (s1.i + 1) % SIZE_MOD }
    else some s

/-- The values of `args`, `inputFile`, `outputFile` and `background` when
control reaches `fork()` on line 170. -/
structure Extraction where
  /-- The remaining vector `args`. -/
  args : List String
  /-- The string `inputFile` (empty when never assigned). -/
  inputFile : String
  /-- The string `outputFile` (empty when never assigned). -/
  outputFile : String
  /-- The flag `background`. -/
  background : Bool
  deriving DecidableEq

/-- Lines 153-156: the test `!args.empty() && args.back() == "&"` and the
`pop_back` it guards. Returns the flag and the vector after the statement. -/
def popBackground (args : List String) : Bool × List String :=
  if args ≠ [] ∧ args.getLast? = some "&" then (true, args.dropLast)
  else (false, args)

/-- Lines 150-168 of `runExternalCommand`: background flag, then the scan. -/
def extractDirectives (args : List String) : Option Extraction :=
  let bg := popBackground args
  (scanLoop (bg.2.length + 1)
      { i := 0, args := bg.2, inputFile := "", outputFile := "" }).map
    fun s =>
      { args := s.args, inputFile := s.inputFile, outputFile := s.outputFile,
        background := bg.1 }

/-! ## Launching (lines 170-236) -/

/-- Where a standard stream of a child is bound before `execvp`. -/
inductive Binding where
  /-- The stream inherited from the shell. -/
  | inherited
  /-- A file opened with `freopen`. -/
  | file (path : String)
  /-- The read end of the pipe (`dup2(pipefd[0], STDIN_FILENO)`). -/
  | pipeRead
  /-- The write end of the pipe (`dup2(pipefd[1], STDOUT_FILENO)`). -/
  | pipeWrite
  deriving DecidableEq

/-- One child process: the vector given to `execvp` (without the closing
null pointer), the bindings of its standard streams, and whether the shell
waits for it. -/
structure Launch where
  /-- The strings of `c_args` before the null pointer. -/
  argv : List String
  /-- The binding of standard input. -/
  stdin : Binding
  /-- The binding of standard output. -/
  stdout : Binding
  /-- Whether the parent waits for the child. -/
  waited : Bool
  deriving DecidableEq

/-- Lines 172-173: `freopen` is called only for a non-empty file name. -/
def redirect (fileName : String) : Binding :=
  if fileName = "" then Binding.inherited else Binding.file fileName

/-- The function `MiniShell::runExternalCommand` (lines 149-188): the child
that is forked and what it executes. -/
def runExternalCommand (args : List String) : Option Launch :=
  (extractDirectives args).map fun e =>
    { argv := e.args
      stdin := redirect e.inputFile
      stdout := redirect e.outputFile
      waited := !e.background }

/-- The call `input.find(c)`: the position of the first occurrence, or `none`
for `std::string::npos`. -/
def find (input : List Char) (c : Char) : Option Nat :=
  if c ∈ input then some (input.indexOf c) else none

/-- Lines 191-193: `leftCmd = input.substr(0, pipePos)` and
`rightCmd = input.substr(pipePos + 1)`. For `npos` the first is the whole
string, and `npos + 1` wraps to `0`, so the second is the whole string too. -/
def pipeSegments (input : List Char) : List Char × List Char :=
  match find input '|' with
  | some pipePos => (input.take pipePos, input.drop (pipePos + 1))
  | none => (input, input)

/-- The function `MiniShell::handlePipes` (lines 190-236). The argument
`pipeOk` is whether `pipe(pipefd)` succeeded. The result lists the children
in the order they are forked. -/
def handlePipes (pipeOk : Bool) (input : String) : Option (List Launch) := do
  let segs := pipeSegments input.data
  let leftArgs ← split (String.mk segs.1)
  let rightArgs ← split (String.mk segs.2)
  if pipeOk then
    pure [ { argv := leftArgs, stdin := Binding.inherited,
             stdout := Binding.pipeWrite, waited := true },
           { argv := rightArgs, stdin := Binding.pipeRead,
             stdout := Binding.inherited, waited := true } ]
  else pure []

/-! ## Built-in and convenience commands (lines 59-147) -/

/-- What `handleCustomCommands` does when it returns `true`. Printed text is
kept only for `history`; the other verbs are recorded by name with the
arguments they use. -/
inductive CustomAction where
  /-- The verb `greet`. -/
  | greet
  /-- The verb `help`. -/
  | help
  /-- The verb `calc` with the wrong number of arguments. -/
  | calcUsage
  /-- The verb `calc` applied to two argument strings. -/
  | calc (a b : String)
  /-- The verb `repeat` with the words it prints. -/
  | repeatWords (words : List String)
  /-- The verb `history`: the numbered entries that are printed, in order. -/
  | history (shown : List (Nat × String))
  /-- The verb `runcpp` with the wrong number of arguments. -/
  | runcppUsage
  /-- The verb `runcpp` applied to a file name. -/
  | runcpp (fileName : String)
  deriving DecidableEq

/-- The function `MiniShell::handleCustomCommands` (lines 73-147); `none` is
the return value `false`. The loop of lines 117-118 prints `i + 1` and
`history[i]` for every index. -/
def handleCustomCommands (history : List String) (args : List String) :
    Option CustomAction :=
  match args with
  | [] => none
  | verb :: rest =>
    if verb = "greet" then some CustomAction.greet
    else if verb = "help" then some CustomAction.help
    else if verb = "calc" then
      match rest with
      | [a, b] => some (CustomAction.calc a b)
      | _ => some CustomAction.calcUsage
    else if verb = "repeat" then some (CustomAction.repeatWords rest)
    else if verb = "history" then
      some (CustomAction.history (history.enumFrom 1))
    else if verb = "runcpp" then
      match rest with
      | [fileName] => some (CustomAction.runcpp fileName)
      | _ => some CustomAction.runcppUsage
    else none

/-- What `handleBuiltInCommands` does when it does not return `false`. -/
inductive BuiltInAction where
  /-- An empty vector: nothing happens (line 60). -/
  | nothing
  /-- The verb `exit`: the process ends with status 0. -/
  | exit
  /-- The verb `cd`, with its argument if there is one. -/
  | cd (path : Option String)
  deriving DecidableEq

/-- The function `MiniShell::handleBuiltInCommands` (lines 59-71); `none` is
the return value `false`. -/
def handleBuiltInCommands (args : List String) : Option BuiltInAction :=
  match args with
  | [] => some BuiltInAction.nothing
  | verb :: rest =>
    if verb = "exit" then some BuiltInAction.exit
    else if verb = "cd" then some (BuiltInAction.cd rest.head?)
    else none

/-! ## Dispatcher (lines 25-48) -/

/-- The fields of the shell object: the vector `history` and the lines
written to `logFile`. -/
structure Shell where
  /-- The vector `history`. -/
  history : List String
  /-- The lines appended to the log file. -/
  log : List String
  deriving DecidableEq

/-- A call made by one iteration of `run` to a member function. -/
inductive Call where
  /-- The call `handlePipes(input)`. -/
  | handlePipes (input : String)
  /-- The call `split(input)`. -/
  | split (input : String)
  /-- The call `handleCustomCommands(args)`. -/
  | handleCustomCommands (args : List String)
  /-- The call `handleBuiltInCommands(args)`. -/
  | handleBuiltInCommands (args : List String)
  /-- The call `runExternalCommand(args)`. -/
  | runExternalCommand (args : List String)
  deriving DecidableEq

/-- What one iteration of `run` did with the line. -/
inductive Outcome where
  /-- The line was empty (line 31). -/
  | skipped
  /-- The line went to `handlePipes`, which forked these children. -/
  | pipeline (children : List Launch)
  /-- A convenience command ran. -/
  | custom (action : CustomAction)
  /-- A built-in command ran. -/
  | builtIn (action : BuiltInAction)
  /-- The line went to `runExternalCommand`, which forked this child. -/
  | external (child : Launch)
  deriving DecidableEq

/-- The result of one iteration of `run`. -/
structure Iteration where
  /-- The shell object after the iteration. -/
  shell : Shell
  /-- The member functions called, in order. -/
  calls : List Call
  /-- What was done. -/
  outcome : Outcome
  deriving DecidableEq

/-- One iteration of the loop of `MiniShell::run` (lines 29-46) on the line
`input` read by `getline`. The argument `pipeOk` is whether a call of
`pipe` succeeds. -/
def runIteration (pipeOk : Bool) (sh : Shell) (input : String) :
    Option Iteration :=
  if input.data = [] then
    some { shell := sh, calls := [], outcome := Outcome.skipped }
  else
    let sh1 : Shell :=
      { history := sh.history ++ [input], log := sh.log ++ [input] }
    if find input.data '|' ≠ none then
      (handlePipes pipeOk input).map fun children =>
        { shell := sh1, calls := [Call.handlePipes input],
          outcome := Outcome.pipeline children }
    else
      (split input).bind fun args =>
        match handleCustomCommands sh1.history args with
        | some action =>
          some { shell := sh1
                 calls := [Call.split input, Call.handleCustomCommands args]
                 outcome := Outcome.custom action }
        | none =>
          match handleBuiltInCommands args with
          | some action =>
            some { shell := sh1
                   calls := [Call.split input, Call.handleCustomCommands args,
                             Call.handleBuiltInCommands args]
                   outcome := Outcome.builtIn action }
          | none =>
            (runExternalCommand args).map fun child =>
              { shell := sh1
                calls := [Call.split input, Call.handleCustomCommands args,
                          Call.handleBuiltInCommands args,
                          Call.runExternalCommand args]
                outcome := Outcome.external child }

/-! ## The scan, read from the specification -/

/-- Whether a token is a redirection directive. -/
def isDirective (t : String) : Bool := t = "<" || t = ">"

/-- The scan as section 4.2 words it, on the tokens from the current position
on: a directive token with a following token is removed together with that
token and the scan goes on behind them; any other token is kept. -/
def remainingSpec : List String → List String
  | [] => []
  | [t] => [t]
  | d :: p :: rest =>
    if isDirective d then remainingSpec rest else d :: remainingSpec (p :: rest)

/-- The matches of the scan as section 4.2 words it, in order: each matched
directive token with the token captured as its path. -/
def matchedSpec : List String → List (String × String)
  | [] => []
  | [_] => []
  | d :: p :: rest =>
    if isDirective d then (d, p) :: matchedSpec rest else matchedSpec (p :: rest)

/-- The path following the last match of directive `d`, or `init` when `d`
was never matched. -/
def lastPath (d : String) (init : String) (ms : List (String × String)) : String :=
  (((ms.filter fun m => m.1 = d).map Prod.snd).getLast?).getD init

/-! ## The tokenizer, read from the specification -/

/-- The maximal runs of characters that are not white space, in order: the
line is cut at every white-space character and the empty pieces are dropped. -/
def maximalRuns (line : List Char) : List String :=
  ((line.splitOnP isspace).filter fun piece => piece ≠ []).map String.mk

/-! ## The matches of the scan -/

/-- The branch of the loop body taken in state `s` (lines 159 and 163): the
directive token matched, with the token captured as its path; `none` when
neither condition holds. -/
def matchAt (s : ScanState) : Option (String × String) :=
  if s.args[s.i]? = some "<" ∧ s.i + 1 < s.args.length then
    some ("<", s.args.getD (s.i + 1) "")
  else if s.args[s.i]? = some ">" ∧ s.i + 1 < s.args.length then
    some (">", s.args.getD (s.i + 1) "")
  else none

/-- The matches made by the loop of lines 158-168, in the order in which its
iterations make them. The iterations are those of `scanLoop`. -/
def scanMatches : Nat → ScanState → List (String × String)
  | 0, _ => []
  | fuel + 1, s =>
    if s.i < s.args.length then
      let s1 := scanBody s
      (matchAt s).toList ++ scanMatches fuel { s1 with i := (s1.i + 1) % SIZE_MOD }
    else []

/-! ## Lemmas on the scan -/

theorem lastPath_nil (d init : String) : lastPath d init [] = init := by
  simp [lastPath]

theorem lastPath_cons_same (d init p : String) (ms : List (String × String)) :
    lastPath d init ((d, p) :: ms) = lastPath d p ms := by
  unfold lastPath
  simp only [List.filter_cons, decide_True, if_true, List.map_cons]
  cases h : List.map Prod.snd (List.filter (fun m => decide (m.1 = d)) ms) with
  | nil => simp
  | cons a l =>
    rw [List.getLast?_cons_cons, List.getLast?_eq_getLast _ (by simp)]
    simp

theorem lastPath_cons_other (d e init p : String) (ms : List (String × String))
    (h : e ≠ d) : lastPath d init ((e, p) :: ms) = lastPath d init ms := by
  unfold lastPath
  simp [List.filter_cons, h]

theorem size_dec_inc (n : Nat) (h : n < SIZE_MOD) :
    ((n + SIZE_MOD - 1) % SIZE_MOD + 1) % SIZE_MOD = n := by
  unfold SIZE_MOD at *
  omega

theorem getElem?_at (pre rest : List String) (x : String) :
    (pre ++ x :: rest)[pre.length]? = some x := by
  rw [List.getElem?_append_right (Nat.le_refl _)]
  simp

theorem getD_at_succ (pre rest : List String) (x y : String) :
    (pre ++ x :: y :: rest).getD (pre.length + 1) "" = y := by
  rw [List.getD_eq_getElem?_getD, List.getElem?_append_right (Nat.le_succ _)]
  simp

theorem erasePair_append (pre rest : List String) (d p : String) :
    erasePair (pre ++ d :: p :: rest) pre.length = pre ++ rest := by
  simp [erasePair]

/-- The body at a `<` that has a following token. -/
theorem scanBody_input (pre rest : List String) (p inF outF : String) :
    scanBody ⟨pre.length, pre ++ "<" :: p :: rest, inF, outF⟩ =
      ⟨(pre.length + SIZE_MOD - 1) % SIZE_MOD, pre ++ rest, p, outF⟩ := by
  unfold scanBody
  simp only [getElem?_at, getD_at_succ, erasePair_append]
  simp

/-- The body at a `>` that has a following token. -/
theorem scanBody_output (pre rest : List String) (p inF outF : String) :
    scanBody ⟨pre.length, pre ++ ">" :: p :: rest, inF, outF⟩ =
      ⟨(pre.length + SIZE_MOD - 1) % SIZE_MOD, pre ++ rest, inF, p⟩ := by
  unfold scanBody
  simp only [getElem?_at, getD_at_succ, erasePair_append]
  simp

/-- The body at a token that is no directive. -/
theorem scanBody_plain (pre rest : List String) (t inF outF : String)
    (h : isDirective t = false) :
    scanBody ⟨pre.length, pre ++ t :: rest, inF, outF⟩ =
      ⟨pre.length, pre ++ t :: rest, inF, outF⟩ := by
  simp only [isDirective, Bool.or_eq_false_iff, decide_eq_false_iff_not] at h
  unfold scanBody
  simp only [getElem?_at]
  simp [h.1, h.2]

/-- The body at the last token, whatever it is. -/
theorem scanBody_last (pre : List String) (t inF outF : String) :
    scanBody ⟨pre.length, pre ++ [t], inF, outF⟩ =
      ⟨pre.length, pre ++ [t], inF, outF⟩ := by
  unfold scanBody
  simp

theorem isDirective_cases (d : String) (h : isDirective d = true) : d = "<" ∨ d = ">" := by
  simpa [isDirective] using h

/-- The loop started at index `pre.length` on `pre ++ post`, where `pre` has
been scanned already, ends with the specification's result on `post`. -/
theorem scanLoop_append : ∀ (post pre : List String) (inF outF : String) (fuel : Nat),
    (pre ++ post).length < SIZE_MOD → post.length < fuel →
    scanLoop fuel ⟨pre.length, pre ++ post, inF, outF⟩ =
      some ⟨(pre ++ remainingSpec post).length, pre ++ remainingSpec post,
        lastPath "<" inF (matchedSpec post), lastPath ">" outF (matchedSpec post)⟩
  | [], pre, inF, outF, fuel, _, hf => by
    obtain ⟨f, rfl⟩ : ∃ f, fuel = f + 1 := ⟨fuel - 1, by simp at hf; omega⟩
    simp [scanLoop, remainingSpec, matchedSpec, lastPath_nil]
  | [t], pre, inF, outF, fuel, hlen, hf => by
    obtain ⟨f, rfl⟩ : ∃ f, fuel = f + 1 := ⟨fuel - 1, by simp at hf; omega⟩
    have hlt : pre.length < (pre ++ [t]).length := by simp
    simp only [scanLoop, hlt, if_true, scanBody_last]
    have hi : (pre.length + 1) % SIZE_MOD = (pre ++ [t]).length := by
      rw [Nat.mod_eq_of_lt (by simpa using hlen)]; simp
    rw [hi]
    have := scanLoop_append [] (pre ++ [t]) inF outF f (by simpa using hlen)
      (by simp at hf ⊢; omega)
    simpa [remainingSpec, matchedSpec, lastPath_nil] using this
  | d :: p :: rest, pre, inF, outF, fuel, hlen, hf => by
    obtain ⟨f, rfl⟩ : ∃ f, fuel = f + 1 := ⟨fuel - 1, by simp at hf; omega⟩
    have hlt : pre.length < (pre ++ d :: p :: rest).length := by simp
    have hpre : pre.length < SIZE_MOD := by simp at hlen; omega
    simp only [scanLoop, hlt, if_true]
    by_cases hd : isDirective d = true
    · have ih := fun a b => scanLoop_append rest pre a b f
        (by simp at hlen ⊢; omega) (by simp at hf ⊢; omega)
      rcases isDirective_cases d hd with rfl | rfl
      · rw [scanBody_input]
        simp only [size_dec_inc _ hpre, ih]
        simp [remainingSpec, matchedSpec, isDirective, lastPath_cons_same,
          lastPath_cons_other]
      · rw [scanBody_output]
        simp only [size_dec_inc _ hpre, ih]
        simp [remainingSpec, matchedSpec, isDirective, lastPath_cons_same,
          lastPath_cons_other]
    · have hd' : isDirective d = false := by simpa using hd
      rw [scanBody_plain _ _ _ _ _ hd']
      have hi : (pre.length + 1) % SIZE_MOD = (pre ++ [d]).length := by
        rw [Nat.mod_eq_of_lt (by simp at hlen; omega)]; simp
      have hargs : pre ++ d :: p :: rest = (pre ++ [d]) ++ (p :: rest) := by simp
      simp only [hi]
      rw [hargs]
      rw [scanLoop_append (p :: rest) (pre ++ [d]) inF outF f
        (by simpa using hlen) (by simp at hf ⊢; omega)]
      simp [remainingSpec, matchedSpec, hd']
termination_by post => post.length

/-! ## Lemmas on the tokenizer -/

theorem dropWhile_head (p : Char → Bool) (l : List Char) :
    l.dropWhile p = [] ∨ ∃ a as, l.dropWhile p = a :: as ∧ p a = false := by
  induction l with
  | nil => simp
  | cons x xs ih =>
    by_cases hx : p x = true
    · simpa [List.dropWhile_cons, hx] using ih
    · right
      exact ⟨x, xs, by simp [List.dropWhile_cons, hx], by simpa using hx⟩

theorem maximalRuns_nil : maximalRuns [] = [] := by
  simp [maximalRuns, List.splitOnP_nil]

theorem maximalRuns_cons_space (c : Char) (l : List Char) (h : isspace c = true) :
    maximalRuns (c :: l) = maximalRuns l := by
  simp [maximalRuns, List.splitOnP_cons, h]

theorem maximalRuns_dropWhile (l : List Char) :
    maximalRuns (l.dropWhile isspace) = maximalRuns l := by
  induction l with
  | nil => simp
  | cons x xs ih =>
    by_cases hx : isspace x = true
    · rw [List.dropWhile_cons, if_pos hx, ih, maximalRuns_cons_space x xs hx]
    · rw [List.dropWhile_cons, if_neg hx]

/-- A failed extraction: the unread stream holds white space only. -/
theorem extractToken_none (stream : List Char) (h : extractToken stream = none) :
    stream.dropWhile isspace = [] := by
  unfold extractToken at h
  simp only at h
  split at h
  · rename_i htok
    rcases dropWhile_head isspace stream with h0 | ⟨a, as, h1, h2⟩
    · exact h0
    · rw [h1] at htok
      simp [List.takeWhile_cons, h2] at htok
  · simp at h

/-- A successful extraction: the token is a non-empty run without white
space, and the rest is empty or starts with a white-space character. -/
theorem extractToken_some (stream : List Char) (t : String) (rest : List Char)
    (h : extractToken stream = some (t, rest)) :
    stream.dropWhile isspace = t.data ++ rest ∧ t.data ≠ [] ∧
      (∀ c ∈ t.data, isspace c = false) ∧
      (rest = [] ∨ ∃ sep as, rest = sep :: as ∧ isspace sep = true) := by
  unfold extractToken at h
  simp only at h
  split at h
  · simp at h
  · rename_i htok
    simp only [Option.some.injEq, Prod.mk.injEq] at h
    obtain ⟨rfl, rfl⟩ := h
    refine ⟨by simp [List.takeWhile_append_dropWhile], htok, ?_, ?_⟩
    · intro c hc
      have := List.mem_takeWhile_imp hc
      simpa using this
    · rcases dropWhile_head (fun c => !isspace c)
          (List.dropWhile isspace stream) with h0 | ⟨a, as, h1, h2⟩
      · exact Or.inl h0
      · exact Or.inr ⟨a, as, h1, by simpa using h2⟩

theorem length_dropWhile_le (p : Char → Bool) (l : List Char) :
    (l.dropWhile p).length ≤ l.length := by
  induction l with
  | nil => simp
  | cons x xs ih =>
    rw [List.dropWhile_cons]
    split
    · simp; omega
    · simp

theorem extractToken_length (stream : List Char) (t : String) (rest : List Char)
    (h : extractToken stream = some (t, rest)) : rest.length < stream.length := by
  obtain ⟨h1, h2, -, -⟩ := extractToken_some stream t rest h
  have h3 := length_dropWhile_le isspace stream
  rw [h1, List.length_append] at h3
  have : 0 < t.data.length := List.length_pos.mpr h2
  omega

theorem maximalRuns_none (stream : List Char) (h : extractToken stream = none) :
    maximalRuns stream = [] := by
  rw [← maximalRuns_dropWhile, extractToken_none stream h, maximalRuns_nil]

theorem maximalRuns_some (stream : List Char) (t : String) (rest : List Char)
    (h : extractToken stream = some (t, rest)) :
    maximalRuns stream = t :: maximalRuns rest := by
  obtain ⟨h1, h2, h3, h4⟩ := extractToken_some stream t rest h
  rw [← maximalRuns_dropWhile, h1]
  have hns : ∀ c ∈ t.data, ¬ isspace c = true := fun c hc => by simp [h3 c hc]
  rcases h4 with rfl | ⟨sep, as, rfl, hsep⟩
  · simp [maximalRuns, List.splitOnP_eq_single isspace _ hns, h2]
  · rw [maximalRuns_cons_space sep as hsep]
    simp [maximalRuns, List.splitOnP_first isspace _ hns sep hsep, h2]

/-- With enough iterations the loop of `split` appends the maximal runs of the
unread stream to the tokens. -/
theorem splitLoop_eq : ∀ (fuel : Nat) (stream : List Char) (tokens : List String),
    stream.length < fuel →
    splitLoop fuel stream tokens = some (tokens ++ maximalRuns stream)
  | 0, _, _, h => by omega
  | fuel + 1, stream, tokens, h => by
    unfold splitLoop
    cases hx : extractToken stream with
    | none => simp [maximalRuns_none stream hx]
    | some tr =>
      obtain ⟨t, rest⟩ := tr
      have hl := extractToken_length stream t rest hx
      simp only
      rw [splitLoop_eq fuel rest (tokens ++ [t]) (by omega),
        maximalRuns_some stream t rest hx]
      simp

theorem split_eq (input : String) : split input = some (maximalRuns input.data) := by
  unfold split
  rw [splitLoop_eq _ _ _ (Nat.lt_succ_self _)]
  simp

theorem filter_dropWhile_space (l : List Char) :
    (l.dropWhile isspace).filter (fun c => !isspace c) =
      l.filter (fun c => !isspace c) := by
  induction l with
  | nil => simp
  | cons x xs ih =>
    by_cases hx : isspace x = true
    · rw [List.dropWhile_cons, if_pos hx, ih]
      simp [List.filter_cons, hx]
    · rw [List.dropWhile_cons, if_neg hx]

theorem filter_of_no_space (l : List Char) (h : ∀ c ∈ l, isspace c = false) :
    l.filter (fun c => !isspace c) = l := by
  rw [List.filter_eq_self]
  intro c hc
  simp [h c hc]

/-- Every maximal run is non-empty and free of white space, and the runs
concatenate to the line without its white space. -/
theorem maximalRuns_props : ∀ (n : Nat) (stream : List Char), stream.length ≤ n →
    (∀ t ∈ maximalRuns stream, t.data ≠ [] ∧ ∀ c ∈ t.data, isspace c = false) ∧
      (maximalRuns stream).flatMap String.data = stream.filter (fun c => !isspace c)
  | n, stream, hn => by
    cases hx : extractToken stream with
    | none =>
      rw [maximalRuns_none stream hx]
      refine ⟨by simp, ?_⟩
      rw [← filter_dropWhile_space, extractToken_none stream hx]
      simp
    | some tr =>
      obtain ⟨t, rest⟩ := tr
      have hl := extractToken_length stream t rest hx
      obtain ⟨h1, h2, h3, -⟩ := extractToken_some stream t rest hx
      cases n with
      | zero => omega
      | succ m =>
        obtain ⟨ih1, ih2⟩ := maximalRuns_props m rest (by omega)
        rw [maximalRuns_some stream t rest hx]
        constructor
        · intro u hu
          rcases List.mem_cons.mp hu with rfl | hu
          · exact ⟨h2, h3⟩
          · exact ih1 u hu
        · rw [← filter_dropWhile_space stream, h1, List.filter_append,
            filter_of_no_space _ h3, List.flatMap_cons, ih2]

/-! ## Lemmas on the specification's scan -/

theorem remainingSpec_cons_plain (c : String) (l : List String)
    (h : isDirective c = false) : remainingSpec (c :: l) = c :: remainingSpec l := by
  cases l with
  | nil => simp [remainingSpec]
  | cons p rest => simp [remainingSpec, h]

theorem matchedSpec_cons_plain (c : String) (l : List String)
    (h : isDirective c = false) : matchedSpec (c :: l) = matchedSpec l := by
  cases l with
  | nil => simp [matchedSpec]
  | cons p rest => simp [matchedSpec, h]

theorem remainingSpec_append_plain (cmd rest : List String)
    (h : ∀ t ∈ cmd, isDirective t = false) :
    remainingSpec (cmd ++ rest) = cmd ++ remainingSpec rest := by
  induction cmd with
  | nil => simp
  | cons c cs ih =>
    rw [List.cons_append, remainingSpec_cons_plain c _ (h c (by simp)),
      ih (fun t ht => h t (by simp [ht]))]
    simp

theorem matchedSpec_append_plain (cmd rest : List String)
    (h : ∀ t ∈ cmd, isDirective t = false) :
    matchedSpec (cmd ++ rest) = matchedSpec rest := by
  induction cmd with
  | nil => simp
  | cons c cs ih =>
    rw [List.cons_append, matchedSpec_cons_plain c _ (h c (by simp)),
      ih (fun t ht => h t (by simp [ht]))]

theorem remainingSpec_length : ∀ l : List String,
    (remainingSpec l).length + 2 * (matchedSpec l).length = l.length
  | [] => by simp [remainingSpec, matchedSpec]
  | [t] => by simp [remainingSpec, matchedSpec]
  | d :: p :: rest => by
    unfold remainingSpec matchedSpec
    split
    · have := remainingSpec_length rest
      simp only [List.length_cons]
      omega
    · have := remainingSpec_length (p :: rest)
      simp only [List.length_cons] at this ⊢
      omega
termination_by l => l.length

theorem matchAt_input (pre rest : List String) (p inF outF : String) :
    matchAt ⟨pre.length, pre ++ "<" :: p :: rest, inF, outF⟩ = some ("<", p) := by
  unfold matchAt
  simp only [getElem?_at, getD_at_succ]
  simp

theorem matchAt_output (pre rest : List String) (p inF outF : String) :
    matchAt ⟨pre.length, pre ++ ">" :: p :: rest, inF, outF⟩ = some (">", p) := by
  unfold matchAt
  simp only [getElem?_at, getD_at_succ]
  simp

theorem matchAt_plain (pre rest : List String) (t inF outF : String)
    (h : isDirective t = false) :
    matchAt ⟨pre.length, pre ++ t :: rest, inF, outF⟩ = none := by
  simp only [isDirective, Bool.or_eq_false_iff, decide_eq_false_iff_not] at h
  unfold matchAt
  simp only [getElem?_at]
  simp [h.1, h.2]

theorem matchAt_last (pre : List String) (t inF outF : String) :
    matchAt ⟨pre.length, pre ++ [t], inF, outF⟩ = none := by
  unfold matchAt
  simp

/-- The matches the loop makes are the matches of the specification's scan. -/
theorem scanMatches_append : ∀ (post pre : List String) (inF outF : String) (fuel : Nat),
    (pre ++ post).length < SIZE_MOD → post.length < fuel →
    scanMatches fuel ⟨pre.length, pre ++ post, inF, outF⟩ = matchedSpec post
  | [], pre, inF, outF, fuel, _, hf => by
    obtain ⟨f, rfl⟩ : ∃ f, fuel = f + 1 := ⟨fuel - 1, by simp at hf; omega⟩
    simp [scanMatches, matchedSpec]
  | [t], pre, inF, outF, fuel, hlen, hf => by
    obtain ⟨f, rfl⟩ : ∃ f, fuel = f + 1 := ⟨fuel - 1, by simp at hf; omega⟩
    have hlt : pre.length < (pre ++ [t]).length := by simp
    simp only [scanMatches, hlt, if_true, scanBody_last, matchAt_last]
    have hi : (pre.length + 1) % SIZE_MOD = (pre ++ [t]).length := by
      rw [Nat.mod_eq_of_lt (by simpa using hlen)]; simp
    rw [hi]
    have := scanMatches_append [] (pre ++ [t]) inF outF f (by simpa using hlen)
      (by simp at hf ⊢; omega)
    simpa [matchedSpec] using this
  | d :: p :: rest, pre, inF, outF, fuel, hlen, hf => by
    obtain ⟨f, rfl⟩ : ∃ f, fuel = f + 1 := ⟨fuel - 1, by simp at hf; omega⟩
    have hlt : pre.length < (pre ++ d :: p :: rest).length := by simp
    have hpre : pre.length < SIZE_MOD := by simp at hlen; omega
    simp only [scanMatches, hlt, if_true]
    by_cases hd : isDirective d = true
    · have ih := fun a b => scanMatches_append rest pre a b f
        (by simp at hlen ⊢; omega) (by simp at hf ⊢; omega)
      rcases isDirective_cases d hd with rfl | rfl
      · rw [scanBody_input, matchAt_input]
        simp only [size_dec_inc _ hpre, ih]
        simp [matchedSpec, isDirective]
      · rw [scanBody_output, matchAt_output]
        simp only [size_dec_inc _ hpre, ih]
        simp [matchedSpec, isDirective]
    · have hd' : isDirective d = false := by simpa using hd
      rw [scanBody_plain _ _ _ _ _ hd', matchAt_plain _ _ _ _ _ hd']
      have hi : (pre.length + 1) % SIZE_MOD = (pre ++ [d]).length := by
        rw [Nat.mod_eq_of_lt (by simp at hlen; omega)]; simp
      have hargs : pre ++ d :: p :: rest = (pre ++ [d]) ++ (p :: rest) := by simp
      simp only [hi]
      rw [hargs]
      rw [scanMatches_append (p :: rest) (pre ++ [d]) inF outF f
        (by simpa using hlen) (by simp at hf ⊢; omega)]
      simp [matchedSpec, hd']
termination_by post => post.length

/-- The whole scan from index 0. -/
theorem scanLoop_zero (t : List String) (fuel : Nat) (hlen : t.length < SIZE_MOD)
    (hf : t.length < fuel) :
    scanLoop fuel ⟨0, t, "", ""⟩ =
      some ⟨(remainingSpec t).length, remainingSpec t,
        lastPath "<" "" (matchedSpec t), lastPath ">" "" (matchedSpec t)⟩ := by
  have := scanLoop_append t [] "" "" fuel (by simpa using hlen) hf
  simpa using this

theorem scanMatches_zero (t : List String) (fuel : Nat) (hlen : t.length < SIZE_MOD)
    (hf : t.length < fuel) :
    scanMatches fuel ⟨0, t, "", ""⟩ = matchedSpec t := by
  have := scanMatches_append t [] "" "" fuel (by simpa using hlen) hf
  simpa using this

theorem popBackground_length (args : List String) :
    (popBackground args).2.length ≤ args.length := by
  unfold popBackground
  split <;> simp

theorem popBackground_eq (args : List String) :
    popBackground args =
      if args.getLast? = some "&" then (true, args.dropLast) else (false, args) := by
  unfold popBackground
  by_cases h : args.getLast? = some "&"
  · have : args ≠ [] := by rintro rfl; simp at h
    simp [h, this]
  · simp [h]

/-- The extraction, for a vector of representable size. -/
theorem extractDirectives_eq (args : List String) (hlen : args.length < SIZE_MOD) :
    extractDirectives args =
      some ⟨remainingSpec (popBackground args).2,
        lastPath "<" "" (matchedSpec (popBackground args).2),
        lastPath ">" "" (matchedSpec (popBackground args).2),
        (popBackground args).1⟩ := by
  have h := popBackground_length args
  unfold extractDirectives
  simp only
  rw [scanLoop_zero _ _ (by omega) (Nat.lt_succ_self _)]
  simp

theorem lastPath_last_match (d init p : String) (ms₁ ms₂ : List (String × String))
    (h : ∀ m ∈ ms₂, m.1 ≠ d) : lastPath d init (ms₁ ++ (d, p) :: ms₂) = p := by
  unfold lastPath
  have h2 : List.filter (fun m => decide (m.1 = d)) ms₂ = [] := by
    rw [List.filter_eq_nil_iff]
    intro m hm
    simpa using h m hm
  simp [List.filter_append, List.filter_cons, h2]

theorem isDirective_false_iff (t : String) :
    isDirective t = false ↔ t ≠ "<" ∧ t ≠ ">" := by
  simp [isDirective]

/-- C2: for every argument list `cmd` without `<` and `>` and every pair of
non-empty tokens `inp`, `out` with `out` different from `&`, the extraction on
`cmd ++ ["<", inp, ">", out]` leaves exactly `cmd`, captures `inp` and `out`
and does not set the background flag; the child is launched with `cmd` as its
vector, standard input bound to `inp`, standard output bound to `out`, and the
shell waits for it. -/
theorem extraction_of_both_redirections (cmd : List String) (inp out : String)
    (hcmd : ∀ t ∈ cmd, t ≠ "<" ∧ t ≠ ">") (hinp : inp ≠ "") (hout : out ≠ "")
    (hamp : out ≠ "&") (hlen : (cmd ++ ["<", inp, ">", out]).length < SIZE_MOD) :
    extractDirectives (cmd ++ ["<", inp, ">", out]) = some ⟨cmd, inp, out, false⟩ ∧
      runExternalCommand (cmd ++ ["<", inp, ">", out]) =
        some ⟨cmd, Binding.file inp, Binding.file out, true⟩ := by
  have hplain : ∀ t ∈ cmd, isDirective t = false :=
    fun t ht => (isDirective_false_iff t).mpr (hcmd t ht)
  have hlast : (cmd ++ ["<", inp, ">", out]).getLast? = some out := by
    simp [List.getLast?_append]
  have hpop : popBackground (cmd ++ ["<", inp, ">", out]) =
      (false, cmd ++ ["<", inp, ">", out]) := by
    rw [popBackground_eq, hlast]
    simp [hamp]
  have hext : extractDirectives (cmd ++ ["<", inp, ">", out]) =
      some ⟨cmd, inp, out, false⟩ := by
    rw [extractDirectives_eq _ hlen, hpop]
    simp only [remainingSpec_append_plain cmd _ hplain,
      matchedSpec_append_plain cmd _ hplain]
    simp [remainingSpec, matchedSpec, isDirective, lastPath]
  refine ⟨hext, ?_⟩
  rw [runExternalCommand, hext]
  simp [redirect, hinp, hout]

/-- Instance at
`grep x < in.txt > out.txt`. -/
theorem extraction_of_both_redirections_witness :
    extractDirectives (["grep", "x"] ++ ["<", "in.txt", ">", "out.txt"]) =
        some ⟨["grep", "x"], "in.txt", "out.txt", false⟩ ∧
      runExternalCommand (["grep", "x"] ++ ["<", "in.txt", ">", "out.txt"]) =
        some ⟨["grep", "x"], Binding.file "in.txt", Binding.file "out.txt", true⟩ :=
  extraction_of_both_redirections ["grep", "x"] "in.txt" "out.txt"
    (by decide) (by decide) (by decide) (by decide) (by decide)

/-- C3: for every token list of representable size the extraction ends, and
it sets `background` exactly when the list is non-empty and its last token is
`&`. In that case the list is its `dropLast` followed by `&`, and the scan
runs on that `dropLast`: exactly the one last token is dropped. Otherwise the
scan runs on the whole list. -/
theorem background_iff_trailing_ampersand (args : List String)
    (hlen : args.length < SIZE_MOD) :
    ∃ e, extractDirectives args = some e ∧
      (e.background = true ↔ args ≠ [] ∧ args.getLast? = some "&") ∧
      (e.background = true →
        args = args.dropLast ++ ["&"] ∧
        ∃ i, scanLoop (args.dropLast.length + 1) ⟨0, args.dropLast, "", ""⟩ =
          some ⟨i, e.args, e.inputFile, e.outputFile⟩) ∧
      (e.background = false →
        ∃ i, scanLoop (args.length + 1) ⟨0, args, "", ""⟩ =
          some ⟨i, e.args, e.inputFile, e.outputFile⟩) := by
  have hdl : args.dropLast.length < SIZE_MOD := by
    rw [List.length_dropLast]; omega
  by_cases h : args.getLast? = some "&"
  · have hne : args ≠ [] := by rintro rfl; simp at h
    have hpop : popBackground args = (true, args.dropLast) := by
      rw [popBackground_eq, if_pos h]
    have hext : extractDirectives args =
        some ⟨remainingSpec args.dropLast, lastPath "<" "" (matchedSpec args.dropLast),
          lastPath ">" "" (matchedSpec args.dropLast), true⟩ := by
      rw [extractDirectives_eq args hlen, hpop]
    refine ⟨_, hext, ?_, ?_, ?_⟩
    · simp [hne, h]
    · intro _
      refine ⟨?_, (remainingSpec args.dropLast).length, ?_⟩
      · have h1 := List.dropLast_append_getLast? "&" (by simpa using h)
        exact h1.symm
      · rw [scanLoop_zero _ _ hdl (Nat.lt_succ_self _)]
    · intro hb
      simp at hb
  · have hpop : popBackground args = (false, args) := by
      rw [popBackground_eq, if_neg h]
    have hext : extractDirectives args =
        some ⟨remainingSpec args, lastPath "<" "" (matchedSpec args),
          lastPath ">" "" (matchedSpec args), false⟩ := by
      rw [extractDirectives_eq args hlen, hpop]
    refine ⟨_, hext, ?_, ?_, ?_⟩
    · simp [h]
    · intro hb
      simp at hb
    · intro _
      refine ⟨(remainingSpec args).length, ?_⟩
      rw [scanLoop_zero _ _ hlen (Nat.lt_succ_self _)]

/-- Instance at `sleep 5 &`: the
extraction yields the remaining tokens `sleep 5`, no input or output file, and
`background = true`. -/
theorem background_iff_trailing_ampersand_witness :
    extractDirectives ["sleep", "5", "&"] = some ⟨["sleep", "5"], "", "", true⟩ ∧
    ∃ e, extractDirectives ["sleep", "5", "&"] = some e ∧
      (e.background = true ↔
        ["sleep", "5", "&"] ≠ [] ∧ ["sleep", "5", "&"].getLast? = some "&") ∧
      (e.background = true →
        ["sleep", "5", "&"] = ["sleep", "5", "&"].dropLast ++ ["&"] ∧
        ∃ i, scanLoop (["sleep", "5", "&"].dropLast.length + 1)
            ⟨0, ["sleep", "5", "&"].dropLast, "", ""⟩ =
          some ⟨i, e.args, e.inputFile, e.outputFile⟩) ∧
      (e.background = false →
        ∃ i, scanLoop (["sleep", "5", "&"].length + 1) ⟨0, ["sleep", "5", "&"], "", ""⟩ =
          some ⟨i, e.args, e.inputFile, e.outputFile⟩) :=
  ⟨by decide, background_iff_trailing_ampersand ["sleep", "5", "&"] (by decide)⟩

/-- C4: for every token list of representable size, let `ms` be the matches
the scan makes, in order. Whenever `ms` splits as `ms₁ ++ (d, p) :: ms₂` with
no match of the directive `d` in `ms₂` (so `(d, p)` is the last match of `d`,
whatever was matched before), the resulting input file is `p` if `d` is `<`
and the resulting output file is `p` if `d` is `>`. The matches are those of
the specification's scan, and the remaining arguments are the scanned tokens
without the matched pairs: two tokens fewer for every match. -/
theorem last_redirection_wins (args : List String) (hlen : args.length < SIZE_MOD) :
    ∃ e, extractDirectives args = some e ∧
      (∀ ms₁ ms₂ d p,
        scanMatches ((popBackground args).2.length + 1)
            ⟨0, (popBackground args).2, "", ""⟩ = ms₁ ++ (d, p) :: ms₂ →
        (∀ m ∈ ms₂, m.1 ≠ d) →
        (d = "<" → e.inputFile = p) ∧ (d = ">" → e.outputFile = p)) ∧
      scanMatches ((popBackground args).2.length + 1)
          ⟨0, (popBackground args).2, "", ""⟩ = matchedSpec (popBackground args).2 ∧
      e.args = remainingSpec (popBackground args).2 ∧
      e.args.length + 2 * (matchedSpec (popBackground args).2).length =
        (popBackground args).2.length := by
  have hp := popBackground_length args
  have hm := scanMatches_zero (popBackground args).2 ((popBackground args).2.length + 1)
    (by omega) (Nat.lt_succ_self _)
  refine ⟨_, extractDirectives_eq args hlen, ?_, hm, rfl, remainingSpec_length _⟩
  intro ms₁ ms₂ d p hsplit hno
  rw [hm] at hsplit
  constructor
  · rintro rfl
    simp only [hsplit]
    exact lastPath_last_match "<" "" p ms₁ ms₂ hno
  · rintro rfl
    simp only [hsplit]
    exact lastPath_last_match ">" "" p ms₁ ms₂ hno

/-- Instance at `cat < a > x < b > y`: the input
file is `b`, the output file is `y`, and only `cat` remains. -/
theorem last_redirection_wins_witness :
    extractDirectives ["cat", "<", "a", ">", "x", "<", "b", ">", "y"] =
        some ⟨["cat"], "b", "y", false⟩ ∧
    scanMatches 10 ⟨0, ["cat", "<", "a", ">", "x", "<", "b", ">", "y"], "", ""⟩ =
        [("<", "a"), (">", "x"), ("<", "b"), (">", "y")] ∧
    ∃ e, extractDirectives ["cat", "<", "a", ">", "x", "<", "b", ">", "y"] = some e ∧
      (∀ ms₁ ms₂ d p,
        scanMatches
            ((popBackground ["cat", "<", "a", ">", "x", "<", "b", ">", "y"]).2.length + 1)
            ⟨0, (popBackground ["cat", "<", "a", ">", "x", "<", "b", ">", "y"]).2, "", ""⟩ =
          ms₁ ++ (d, p) :: ms₂ →
        (∀ m ∈ ms₂, m.1 ≠ d) →
        (d = "<" → e.inputFile = p) ∧ (d = ">" → e.outputFile = p)) ∧
      scanMatches
          ((popBackground ["cat", "<", "a", ">", "x", "<", "b", ">", "y"]).2.length + 1)
          ⟨0, (popBackground ["cat", "<", "a", ">", "x", "<", "b", ">", "y"]).2, "", ""⟩ =
        matchedSpec (popBackground ["cat", "<", "a", ">", "x", "<", "b", ">", "y"]).2 ∧
      e.args = remainingSpec (popBackground ["cat", "<", "a", ">", "x", "<", "b", ">", "y"]).2 ∧
      e.args.length +
          2 * (matchedSpec
            (popBackground ["cat", "<", "a", ">", "x", "<", "b", ">", "y"]).2).length =
        (popBackground ["cat", "<", "a", ">", "x", "<", "b", ">", "y"]).2.length :=
  ⟨by decide, by decide,
    last_redirection_wins ["cat", "<", "a", ">", "x", "<", "b", ">", "y"] (by decide)⟩

theorem length_le_flatMap_data : ∀ tokens : List String,
    (∀ t ∈ tokens, t.data ≠ []) → tokens.length ≤ (tokens.flatMap String.data).length
  | [], _ => by simp
  | t :: ts, h => by
    have ih := length_le_flatMap_data ts (fun u hu => h u (by simp [hu]))
    have ht : 0 < t.data.length := List.length_pos.mpr (h t (by simp))
    rw [List.flatMap_cons, List.length_append, List.length_cons]
    omega

theorem maximalRuns_length_le (line : List Char) :
    (maximalRuns line).length ≤ line.length := by
  obtain ⟨h1, h2⟩ := maximalRuns_props line.length line (Nat.le_refl _)
  have h3 := length_le_flatMap_data (maximalRuns line) (fun t ht => (h1 t ht).1)
  rw [h2] at h3
  exact h3.trans (List.length_filter_le _ _)

theorem find_ne_none_iff (line : List Char) (c : Char) :
    find line c ≠ none ↔ c ∈ line := by
  unfold find
  split <;> simp [*]

theorem runExternalCommand_isSome (args : List String) (hlen : args.length < SIZE_MOD) :
    ∃ l, runExternalCommand args = some l :=
  ⟨_, by rw [runExternalCommand, extractDirectives_eq args hlen]; rfl⟩

/-- C5: for every input string `split` returns, and what it returns is the
list of the maximal runs of characters that are not white space, in order.
Every token is non-empty and holds no white-space character, the tokens
concatenate to the input without its white space, the result is empty exactly
when the input holds white space only (the empty string included), the empty
string gives the empty sequence and `a  b` gives `a`, `b`. -/
theorem split_maximal_runs :
    (∀ input : String, ∃ tokens, split input = some tokens ∧
      tokens = maximalRuns input.data ∧
      (∀ t ∈ tokens, t ≠ "" ∧ ∀ c ∈ t.data, isspace c = false) ∧
      tokens.flatMap String.data = input.data.filter (fun c => !isspace c) ∧
      (tokens = [] ↔ ∀ c ∈ input.data, isspace c = true)) ∧
    split "" = some [] ∧ split " \t " = some [] ∧ split "a  b" = some ["a", "b"] := by
  refine ⟨?_, by decide, by decide, by decide⟩
  intro input
  obtain ⟨h1, h2⟩ := maximalRuns_props input.data.length input.data (Nat.le_refl _)
  refine ⟨_, split_eq input, rfl, ?_, h2, ?_⟩
  · intro t ht
    refine ⟨?_, (h1 t ht).2⟩
    intro h
    exact (h1 t ht).1 (by rw [h])
  · constructor
    · intro h c hc
      rw [h] at h2
      by_contra hns
      have : c ∈ input.data.filter (fun c => !isspace c) := by
        rw [List.mem_filter]
        exact ⟨hc, by simpa using hns⟩
      rw [← h2] at this
      simp at this
    · intro h
      have hf : input.data.filter (fun c => !isspace c) = [] := by
        rw [List.filter_eq_nil_iff]
        intro c hc
        simp [h c hc]
      rw [hf] at h2
      cases hm : maximalRuns input.data with
      | nil => rfl
      | cons t ts =>
        rw [hm, List.flatMap_cons] at h2
        have := (h1 t (by rw [hm]; simp)).1
        simp at h2
        exact absurd h2.1 this

/-- C6 (the code at the failing inputs): the line `&` is no built-in or
convenience verb and goes to `runExternalCommand`, which strips the `&` and
launches a child with an empty argument vector; the line `ls |` goes to
`handlePipes`, whose second child gets an empty argument vector, and the line
`< f` launches an empty vector too. In each case `c_args` holds only the null
pointer and `execvp` is called without a program name. -/
theorem empty_argv_reaches_execvp (sh : Shell) :
    runIteration true sh "&" =
        some ⟨⟨sh.history ++ ["&"], sh.log ++ ["&"]⟩,
          [Call.split "&", Call.handleCustomCommands ["&"],
            Call.handleBuiltInCommands ["&"], Call.runExternalCommand ["&"]],
          Outcome.external ⟨[], Binding.inherited, Binding.inherited, false⟩⟩ ∧
      runIteration true sh "< f" =
        some ⟨⟨sh.history ++ ["< f"], sh.log ++ ["< f"]⟩,
          [Call.split "< f", Call.handleCustomCommands ["<", "f"],
            Call.handleBuiltInCommands ["<", "f"], Call.runExternalCommand ["<", "f"]],
          Outcome.external ⟨[], Binding.file "f", Binding.inherited, true⟩⟩ ∧
      runIteration true sh "ls |" =
        some ⟨⟨sh.history ++ ["ls |"], sh.log ++ ["ls |"]⟩,
          [Call.handlePipes "ls |"],
          Outcome.pipeline [⟨["ls"], Binding.inherited, Binding.pipeWrite, true⟩,
            ⟨[], Binding.pipeRead, Binding.inherited, true⟩]⟩ := by
  refine ⟨?_, ?_, ?_⟩
  · have h1 : split "&" = some ["&"] := by decide
    have h2 : runExternalCommand ["&"] =
        some ⟨[], Binding.inherited, Binding.inherited, false⟩ := by decide
    have h3 : find "&".data '|' = none := by decide
    have h4 : "&".data ≠ [] := by decide
    simp [runIteration, h1, h2, h3, h4, handleCustomCommands, handleBuiltInCommands]
  · have h1 : split "< f" = some ["<", "f"] := by decide
    have h2 : runExternalCommand ["<", "f"] =
        some ⟨[], Binding.file "f", Binding.inherited, true⟩ := by decide
    have h3 : find "< f".data '|' = none := by decide
    have h4 : "< f".data ≠ [] := by decide
    simp [runIteration, h1, h2, h3, h4, handleCustomCommands, handleBuiltInCommands]
  · have h1 : handlePipes true "ls |" =
        some [⟨["ls"], Binding.inherited, Binding.pipeWrite, true⟩,
          ⟨[], Binding.pipeRead, Binding.inherited, true⟩] := by decide
    have h3 : find "ls |".data '|' ≠ none := by decide
    have h4 : "ls |".data ≠ [] := by decide
    simp [runIteration, h1, h3, h4]

/-- C7: for every non-empty input line of representable size, one iteration
of `run` calls `handlePipes` and nothing else when the line contains `|`,
whatever its first token: `handleCustomCommands` and `handleBuiltInCommands`
are not called and the outcome is the pipeline. When the line contains no `|`
the iteration ends with no call of `handlePipes` and no pipeline. -/
theorem pipe_lines_bypass_builtins (pipeOk : Bool) (sh : Shell) (input : String)
    (hne : input.data ≠ []) (hlen : input.data.length < SIZE_MOD) :
    ('|' ∈ input.data →
      ∃ children, handlePipes pipeOk input = some children ∧
        runIteration pipeOk sh input =
          some ⟨⟨sh.history ++ [input], sh.log ++ [input]⟩,
            [Call.handlePipes input], Outcome.pipeline children⟩) ∧
    ('|' ∉ input.data →
      ∃ it, runIteration pipeOk sh input = some it ∧
        (∀ c ∈ it.calls, ∀ line, c ≠ Call.handlePipes line) ∧
        (∀ children, it.outcome ≠ Outcome.pipeline children)) := by
  constructor
  · intro hp
    have hfind : find input.data '|' ≠ none := (find_ne_none_iff _ _).mpr hp
    have hpipes : ∃ children, handlePipes pipeOk input = some children := by
      unfold handlePipes
      simp only [split_eq, Option.pure_def, Option.bind_eq_bind, Option.some_bind]
      cases pipeOk <;> simp
    obtain ⟨children, hc⟩ := hpipes
    refine ⟨children, hc, ?_⟩
    unfold runIteration
    rw [if_neg hne, if_pos hfind, hc]
    rfl
  · intro hp
    have hfind : ¬ find input.data '|' ≠ none := fun h => hp ((find_ne_none_iff _ _).mp h)
    have hargs : (maximalRuns input.data).length < SIZE_MOD :=
      lt_of_le_of_lt (maximalRuns_length_le _) hlen
    obtain ⟨l, hl⟩ := runExternalCommand_isSome _ hargs
    unfold runIteration
    rw [if_neg hne, if_neg hfind, split_eq, Option.some_bind]
    cases hcu : handleCustomCommands (sh.history ++ [input]) (maximalRuns input.data) with
    | some a => exact ⟨_, rfl, by simp, by simp⟩
    | none =>
      cases hbi : handleBuiltInCommands (maximalRuns input.data) with
      | some a => exact ⟨_, rfl, by simp, by simp⟩
      | none =>
        simp only [hl, Option.map_some']
        exact ⟨_, rfl, by simp, by simp⟩

/-- Instance at `exit | x`: the line goes to
`handlePipes` with the stages `exit` and `x`, and no built-in is consulted. -/
theorem pipe_lines_bypass_builtins_witness :
    runIteration true ⟨[], []⟩ "exit | x" =
        some ⟨⟨["exit | x"], ["exit | x"]⟩, [Call.handlePipes "exit | x"],
          Outcome.pipeline [⟨["exit"], Binding.inherited, Binding.pipeWrite, true⟩,
            ⟨["x"], Binding.pipeRead, Binding.inherited, true⟩]⟩ ∧
    (('|' ∈ "exit | x".data →
      ∃ children, handlePipes true "exit | x" = some children ∧
        runIteration true ⟨[], []⟩ "exit | x" =
          some ⟨⟨[] ++ ["exit | x"], [] ++ ["exit | x"]⟩,
            [Call.handlePipes "exit | x"], Outcome.pipeline children⟩) ∧
    ('|' ∉ "exit | x".data →
      ∃ it, runIteration true ⟨[], []⟩ "exit | x" = some it ∧
        (∀ c ∈ it.calls, ∀ line, c ≠ Call.handlePipes line) ∧
        (∀ children, it.outcome ≠ Outcome.pipeline children))) :=
  ⟨by decide,
    pipe_lines_bypass_builtins true ⟨[], []⟩ "exit | x" (by decide) (by decide)⟩

theorem runIteration_history (pipeOk : Bool) (sh : Shell) :
    runIteration pipeOk sh "history" =
      some ⟨⟨sh.history ++ ["history"], sh.log ++ ["history"]⟩,
        [Call.split "history", Call.handleCustomCommands ["history"]],
        Outcome.custom (CustomAction.history ((sh.history ++ ["history"]).enumFrom 1))⟩ := by
  have h1 : split "history" = some ["history"] := by decide
  have h3 : find "history".data '|' = none := by decide
  have h4 : "history".data ≠ [] := by decide
  simp [runIteration, h1, h3, h4, handleCustomCommands]

/-- C8 (as stated, refuted): in a fresh session the first `history` line
displays the one entry `1: history`, which is that invocation itself, and the
second `history` line displays two entries, so the two displays differ. -/
theorem history_twice_differs :
    runIteration true ⟨[], []⟩ "history" =
        some ⟨⟨["history"], ["history"]⟩,
          [Call.split "history", Call.handleCustomCommands ["history"]],
          Outcome.custom (CustomAction.history [(1, "history")])⟩ ∧
      runIteration true ⟨["history"], ["history"]⟩ "history" =
        some ⟨⟨["history", "history"], ["history", "history"]⟩,
          [Call.split "history", Call.handleCustomCommands ["history"]],
          Outcome.custom (CustomAction.history [(1, "history"), (2, "history")])⟩ ∧
      ¬ (∀ (sh : Shell) (it₁ it₂ : Iteration) (shown₁ shown₂ : List (Nat × String)),
          runIteration true sh "history" = some it₁ →
          runIteration true it₁.shell "history" = some it₂ →
          it₁.outcome = Outcome.custom (CustomAction.history shown₁) →
          it₂.outcome = Outcome.custom (CustomAction.history shown₂) →
          shown₁ = shown₂ ∧ shown₁.map Prod.snd = sh.history) := by
  refine ⟨by decide, by decide, ?_⟩
  intro h
  have := (h ⟨[], []⟩ _ _ [(1, "history")] [(1, "history"), (2, "history")]
    (runIteration_history true ⟨[], []⟩) (runIteration_history true _) rfl rfl).1
  simp at this

/-- C8 (amended): for every session state, entering the line `history` twice
in a row makes each invocation display every line recorded so far, in recorded
order and numbered from 1, its own line included as the last entry, because
the line is recorded before it is interpreted. The second display is the
first display followed by one more entry, the second `history` line. -/
theorem history_twice_extends (pipeOk : Bool) (sh : Shell) :
    ∃ it₁ it₂ shown₁ shown₂,
      runIteration pipeOk sh "history" = some it₁ ∧
      runIteration pipeOk it₁.shell "history" = some it₂ ∧
      it₁.outcome = Outcome.custom (CustomAction.history shown₁) ∧
      it₂.outcome = Outcome.custom (CustomAction.history shown₂) ∧
      shown₁.map Prod.snd = sh.history ++ ["history"] ∧
      shown₁.map Prod.fst = List.range' 1 (sh.history.length + 1) ∧
      shown₂ = shown₁ ++ [(sh.history.length + 2, "history")] := by
  refine ⟨_, _, _, _, runIteration_history pipeOk sh, runIteration_history pipeOk _,
    rfl, rfl, ?_, ?_, ?_⟩
  · simp [List.enumFrom_map_snd]
  · simp [List.enumFrom_map_fst]
  · simp only [List.append_assoc, List.enumFrom_append]
    simp
    omega

end MiniShell
